import Mathlib

/-!
Verification of the job-dispatch and streaming-result fabric (lxp_poc).

Each section contains a shallow embedding of one part of the source tree,
translated directly from the Python code, followed by the theorems that
settle the corresponding claims.  External effects (broker publishes, LLM
calls, Redis reads) are modelled by explicit outcome parameters
(`Except`-valued arguments) or by explicit state records, so every
function here is a pure, executable translation of the control flow and
data transformations of the source.
-/

/-! ## Worker runtime (`src/worker/worker/main.py`)

`handle_message` consumes one broker message inside
`message.process(requeue=False)`: the message is acked on every path
that leaves the block normally.  The JSON decode of the body and the
dispatched handler are modelled as `Except` outcomes. -/

namespace Worker

end Worker

/-! ## RAG adapter (`src/worker/AI_Simulation_Training/ai.py`, `answer_with_rag`)

The three external calls (prompt embedding, Qdrant search, answer
generation) are modelled as `Except` outcomes.  The returned `Bool`
records whether the answer-generation LLM call was reached. -/

namespace Rag

/-- One retrieved passage, as built from a Qdrant hit. -/
structure Hit where
  score : Int
  text : Option String
  filename : Option String
deriving DecidableEq

/-- The value returned by `answer_with_rag`. -/
structure RagAnswer where
  answer : String
  evidence : List Hit
deriving DecidableEq

/-- `answer_with_rag` from `ai.py`.  `embedRes` is the outcome of the
query-embedding call, `searchRes` of the Qdrant search (already mapped
to evidence records, as the source does), `genRes` of the final
generation call.  The second component is `true` iff the generation
LLM call was made. -/
def answer_with_rag (embedRes : Except String Unit)
    (searchRes : Except String (List Hit))
    (genRes : Except String String) : RagAnswer × Bool :=
  match embedRes with
  | .error e => (⟨"Failed to embed prompt: " ++ e, []⟩, false)
  | .ok _ =>
    match searchRes with
    | .error e =>
        (⟨"Failed to search Qdrant: " ++ e ++
          ". The vector store might need to be re-indexed with the new embedding model.",
          []⟩, false)
    | .ok evidence =>
      if evidence.isEmpty then
        (⟨"I couldn\x27t find any relevant information in the provided documents.", []⟩,
          false)
      else
        match genRes with
        | .error e => (⟨"Failed to generate answer: " ++ e, evidence⟩, true)
        | .ok answer => (⟨answer, evidence⟩, true)

/-- C5: when the vector search succeeds but returns no hits,
`answer_with_rag` returns the canned no-relevant-information answer with
empty evidence, and the generation LLM call is never made on that
path. -/
theorem answer_with_rag_empty_no_llm (genRes : Except String String) :
    answer_with_rag (.ok ()) (.ok []) genRes
      = (⟨"I couldn\x27t find any relevant information in the provided documents.", []⟩,
          false) := rfl

end Rag

/-! ## Sales chat endpoint (`src/api/app/routes/sales.py`, `post_chat_message`)

The endpoint builds a payload from the request and calls
`rabbitmq.publish_chat_message`, then returns `{"status": "message
published"}` (HTTP 200).  The state record carries the set of sessions
whose Redis `session_closed:` flag is `"true"` (set by the consumer in
`src/backend/fastapi_app.py` when the AI reply contains the end token)
and the list of payloads published on the `chat.messages` exchange. -/

namespace SalesApi

/-- A payload published on the `chat.messages` exchange. -/
structure ChatPub where
  session_id : String
  seller_msg : String
deriving DecidableEq

/-- The externally visible state the endpoint interacts with. -/
structure SalesState where
  closedSessions : List String
  chatQueue : List ChatPub
deriving DecidableEq

/-- `post_chat_message` from `routes/sales.py`: builds the payload and
publishes it, returning HTTP 200 with body status `"message
published"`.  Note that the source never reads the closed flag. -/
def post_chat_message (st : SalesState) (session_id seller_msg : String) :
    Nat × String × SalesState :=
  (200, "message published",
    { st with chatQueue := st.chatQueue ++ [⟨session_id, seller_msg⟩] })

/-- C6 counterexample: for a session whose closed flag is set, a further
POST to `/sales/chat` is not rejected with 409 — it returns 200 and one
message is published to the broker. -/
theorem post_chat_message_closed_cex :
    (post_chat_message ⟨["s1"], []⟩ "s1" "hello").1 = 200
    ∧ ¬ (post_chat_message ⟨["s1"], []⟩ "s1" "hello").1 = 409
    ∧ (post_chat_message ⟨["s1"], []⟩ "s1" "hello").2.2.chatQueue.length = 1 := by
  refine ⟨rfl, by decide, rfl⟩

/-- C6 amended: `POST /sales/chat` never consults the closed flag: for
every state (closed or not) it returns HTTP 200 with status `"message
published"` and appends exactly the request payload to the
`chat.messages` queue, leaving the closed set unchanged. -/
theorem post_chat_message_always_publishes (st : SalesState) (sid msg : String) :
    (post_chat_message st sid msg).1 = 200
    ∧ (post_chat_message st sid msg).2.1 = "message published"
    ∧ (post_chat_message st sid msg).2.2.chatQueue = st.chatQueue ++ [⟨sid, msg⟩]
    ∧ (post_chat_message st sid msg).2.2.closedSessions = st.closedSessions :=
  ⟨rfl, rfl, rfl, rfl⟩

end SalesApi

/-! ## Coach dispatcher (`src/api/app/routes/coach.py` with
`src/api/app/schemas.py`)

`JobRequest` only constrains field types (any `str` is a valid
`user_id`, any optional `str` a valid `sub_function`); `enqueue` builds
the task payload — defaulting `sub_function` to `"qa"` by Python
or-truthiness, which treats both `None` and the empty string as falsy —
and always publishes it with routing key `coach.request`. -/

namespace CoachApi

/-- `JobRequest` from `schemas.py` (the `params`/`files` maps are
omitted: they carry no validation and do not affect the claims). -/
structure JobRequest where
  user_id : String
  prompt : Option String
  vectorstore_id : Option String
  sub_function : Option String
deriving DecidableEq

/-- The fields of the published task payload relevant to validation. -/
structure CoachTask where
  user_id : String
  sub_function : String
  routing_key : String
deriving DecidableEq

/-- Python's `x or default` on an optional string: `None` and `""` are
falsy, so both take the default. -/
def orDefault (v : Option String) (d : String) : String :=
  match v with
  | none => d
  | some s => if s = "" then d else s

/-- `enqueue` from `routes/coach.py`: inserts a thread document, builds
the payload with `sub_function = req.sub_function or "qa"`, publishes it
with `ROUTING_KEY = "coach.request"` and returns a 200 `JobResponse`.
The returned list holds the tasks published to the broker. -/
def enqueue (req : JobRequest) : Nat × List CoachTask :=
  (200, [⟨req.user_id, orDefault req.sub_function "qa", "coach.request"⟩])

/-- C7 counterexample: a request with an empty `user_id` and a
`sub_function` outside any whitelist is not rejected with 400 — the
dispatcher returns 200 and publishes one task to the broker. -/
theorem enqueue_no_validation_cex :
    (enqueue ⟨"", none, none, some "definitely_not_whitelisted"⟩).1 = 200
    ∧ ¬ (enqueue ⟨"", none, none, some "definitely_not_whitelisted"⟩).1 = 400
    ∧ (enqueue ⟨"", none, none, some "definitely_not_whitelisted"⟩).2.length = 1 := by
  refine ⟨rfl, by decide, rfl⟩

/-- C7 amended: the dispatcher performs no input validation: every
well-typed request — including an empty `user_id` and an arbitrary
`sub_function`, which defaults to `"qa"` when absent or empty (Python
or-truthiness) — results in HTTP 200 and exactly one task published
with routing key `coach.request`. -/
theorem enqueue_always_publishes (req : JobRequest) :
    (enqueue req).1 = 200
    ∧ (enqueue req).2
        = [⟨req.user_id, orDefault req.sub_function "qa", "coach.request"⟩]
    ∧ (req.sub_function = none ∨ req.sub_function = some "" →
        (enqueue req).2 = [⟨req.user_id, "qa", "coach.request"⟩]) := by
  refine ⟨rfl, rfl, ?_⟩
  rintro (h | h) <;> simp [enqueue, orDefault, h]

end CoachApi

/-! ## Conversation engine (`src/worker/AI_Simulation_Training/ai.py`,
`SalesPersonaAI`)

Strings are embedded as `List Char` so that the literal Korean tokens of
the source (`"판매자"`, `"AI"`, `"<대화 종료>"`, `"(응답 생성 실패: "`) can be
reasoned about character by character.  The LLM call inside
`stream_response` is modelled as an `Except` outcome: `.ok t` is the
`.text` of a successful `generate_content` call, `.error e` carries
`str(e)` of a raised exception.  `_append_history` also writes to the
memory manager and the log manager; those sinks are external to the
session state and do not touch `history`. -/

namespace SimAI

/-- Python `str`, embedded as its character list. -/
abbrev Str := List Char

/-- Python `str.strip()`: remove leading and trailing whitespace. -/
def strip (s : Str) : Str :=
  ((s.dropWhile Char.isWhitespace).reverse.dropWhile Char.isWhitespace).reverse

/-- One iteration of the prefix-removal loop of `stream_response`:
`if full.startswith(tag): full = full[len(tag):].strip()`. -/
def dropTag (tag s : Str) : Str :=
  if tag <+: s then strip (s.drop tag.length) else s

/-- The tags stripped from a model reply, in source order. -/
def replyTags : List Str :=
  ["고객:".toList, "고객(나):".toList, "AI:".toList, "응답:".toList]

/-- The prefix-removal loop of `stream_response`. -/
def cleanReply (s : Str) : Str :=
  replyTags.foldl (fun acc tag => dropTag tag acc) s

/-- The degraded reply built when `generate_content` raises:
`"(응답 생성 실패: " + str(e) + ")"`. -/
def failReply (e : Str) : Str :=
  "(응답 생성 실패: ".toList ++ e ++ ")".toList

/-- `full` as computed by the try/except of `stream_response`: the
stripped model text on success, the synthetic failure text on error. -/
def genFull (gen : Except Str Str) : Str :=
  match gen with
  | .ok t => strip t
  | .error e => failReply e

/-- A history entry as written by `_append_history`: `f"{role}: {content}"`. -/
def entry (role content : Str) : Str := role ++ ": ".toList ++ content

/-- `SalesPersonaAI.stream_response`, restricted to the state it
touches: appends the seller entry, computes the (cleaned) reply,
appends the AI entry, and yields the reply once.  Returns
`(chunks yielded, new history)`. -/
def stream_response (history : List Str) (seller_msg : Str)
    (gen : Except Str Str) : List Str × List Str :=
  let h1 := history ++ [entry "판매자".toList seller_msg]
  let full := cleanReply (genFull gen)
  ([full], h1 ++ [entry "AI".toList full])

/-- A sequence of completed turns: each one runs `stream_response` to
exhaustion on the history left by the previous one. -/
def runTurns (history : List Str) (turns : List (Str × Except Str Str)) :
    List Str :=
  turns.foldl (fun acc t => (stream_response acc t.1 t.2).2) history

/-- `MIN_DIALOGUE_LENGTH` from `AI_Simulation_Training/config.py`. -/
def MIN_DIALOGUE_LENGTH : Nat := 12

/-- `SalesPersonaAI.maybe_autoclose`: deterministic close decision on
the history (the scoring call fired on the close path is an external
effect that does not influence the returned pair). -/
def maybe_autoclose (history : List Str) : Bool × Str :=
  if history.length < MIN_DIALOGUE_LENGTH then (false, [])
  else if "AI:".toList <:+: (history.getLast?).getD []
      ∧ "<대화 종료>".toList <:+: (history.getLast?).getD [] then
    (true, "AI decided to end the conversation.".toList)
  else (false, [])

lemma runTurns_length (history : List Str)
    (turns : List (Str × Except Str Str)) :
    (runTurns history turns).length = history.length + 2 * turns.length := by
  induction turns generalizing history with
  | nil => simp [runTurns]
  | cons t ts ih =>
      have hstep : runTurns history (t :: ts)
          = runTurns ((stream_response history t.1 t.2).2) ts := rfl
      rw [hstep, ih]
      simp [stream_response]
      omega

/-- C2: a fully consumed `stream_response` call appends exactly two
entries to the history — the seller message first, then the AI reply —
and the previous history is kept as a prefix (no entry is ever
removed); consequently a session started with one greeting has history
length N × 2 + 1 after N completed turns. -/
theorem stream_response_appends_turn (history : List Str) (m : Str)
    (gen : Except Str Str) (greeting : Str)
    (turns : List (Str × Except Str Str)) :
    (stream_response history m gen).2
        = history ++ [entry "판매자".toList m,
            entry "AI".toList (cleanReply (genFull gen))]
    ∧ history <+: (stream_response history m gen).2
    ∧ (stream_response history m gen).2.length = history.length + 2
    ∧ (runTurns [greeting] turns).length = 2 * turns.length + 1 := by
  refine ⟨by simp [stream_response], ?_, by simp [stream_response], ?_⟩
  · simp only [stream_response, List.append_assoc]
    exact List.prefix_append _ _
  · rw [runTurns_length]
    simp
    omega

lemma dropTag_cons_ne (p : Char) (tag : Str) (c : Char) (s : Str)
    (h : p ≠ c) : dropTag (p :: tag) (c :: s) = c :: s := by
  unfold dropTag
  rw [if_neg]
  intro hp
  exact h (List.cons_prefix_cons.mp hp).1

lemma cleanReply_paren (t : Str) : cleanReply ('(' :: t) = '(' :: t := by
  have h1 : dropTag ['고', '객', ':'] ('(' :: t) = '(' :: t :=
    dropTag_cons_ne _ _ _ _ (by decide)
  have h2 : dropTag ['고', '객', '(', '나', ')', ':'] ('(' :: t) = '(' :: t :=
    dropTag_cons_ne _ _ _ _ (by decide)
  have h3 : dropTag ['A', 'I', ':'] ('(' :: t) = '(' :: t :=
    dropTag_cons_ne _ _ _ _ (by decide)
  have h4 : dropTag ['응', '답', ':'] ('(' :: t) = '(' :: t :=
    dropTag_cons_ne _ _ _ _ (by decide)
  simp [cleanReply, replyTags, h1, h2, h3, h4]

lemma failReply_cons (e : Str) :
    failReply e = '(' :: ("응답 생성 실패: ".toList ++ e ++ ")".toList) := rfl

lemma cleanReply_failReply (e : Str) :
    cleanReply (failReply e) = failReply e := by
  rw [failReply_cons, cleanReply_paren]

/-- C8: when the LLM call raises, `stream_response` does not propagate
the exception: it yields exactly one chunk — the synthetic text
starting with `"(응답 생성 실패:"` — and appends that chunk to the history
as the AI reply, after the seller entry. -/
theorem stream_response_degraded (history : List Str) (m e : Str) :
    (stream_response history m (.error e)).1 = [failReply e]
    ∧ "(응답 생성 실패:".toList <+: failReply e
    ∧ (stream_response history m (.error e)).2
        = history ++ [entry "판매자".toList m, entry "AI".toList (failReply e)] := by
  refine ⟨?_, ?_, ?_⟩
  · simp [stream_response, genFull, cleanReply_failReply]
  · exact ⟨' ' :: (e ++ ")".toList), rfl⟩
  · simp [stream_response, genFull, cleanReply_failReply]

/-- C3: the close decision is a pure function of the history: when the
history has at least `MIN_DIALOGUE_LENGTH` (12) entries and the last
one is an AI reply containing the literal token `<대화 종료>`, it returns
`true`; when the history is shorter than 12, it returns `false`
regardless of content. -/
theorem maybe_autoclose_close_check :
    (∀ (history : List Str) (content : Str),
        MIN_DIALOGUE_LENGTH ≤ history.length →
        history.getLast? = some (entry "AI".toList content) →
        "<대화 종료>".toList <:+: content →
        (maybe_autoclose history).1 = true)
    ∧ (∀ history : List Str, history.length < MIN_DIALOGUE_LENGTH →
        (maybe_autoclose history).1 = false) := by
  constructor
  · intro history content hlen hlast htok
    have hget : (history.getLast?).getD [] = entry "AI".toList content := by
      rw [hlast]
      rfl
    have hAI : "AI:".toList <:+: (history.getLast?).getD [] := by
      rw [hget]
      exact ⟨[], ' ' :: content, rfl⟩
    have hTok : "<대화 종료>".toList <:+: (history.getLast?).getD [] := by
      rw [hget]
      obtain ⟨s, t, hst⟩ := htok
      refine ⟨"AI: ".toList ++ s, t, ?_⟩
      rw [← hst]
      simp [entry, List.append_assoc]
    unfold maybe_autoclose
    rw [if_neg (by omega), if_pos ⟨hAI, hTok⟩]
  · intro history hlen
    unfold maybe_autoclose
    rw [if_pos hlen]

/-- Witness for C3 at a concrete 12-entry history and a concrete short
history. -/
theorem maybe_autoclose_close_check_witness :
    (maybe_autoclose ((List.replicate 11 "판매자: 안녕하세요".toList)
        ++ [entry "AI".toList "네, 좋습니다. <대화 종료>".toList])).1 = true
    ∧ (maybe_autoclose ["AI: <대화 종료>".toList]).1 = false := by
  constructor
  · exact maybe_autoclose_close_check.1 _ "네, 좋습니다. <대화 종료>".toList
      (by decide) (by decide) (by decide)
  · exact maybe_autoclose_close_check.2 _ (by decide)

end SimAI

/-! ## File upload and vectorstore registry (`src/api/app/routes/files.py`,
`src/api/app/db.py`)

The `vectorstore` Mongo collection is a list of documents, each holding
an id and a `files` array; a file entry keeps the fields the claims use
(`file_hash` and `filename`; the other metadata written by the route
does not affect them).  `upload_file` is modelled on its success path:
the global cleanup loop becomes one pass over the collection (pulling
the hash from a document without it is a no-op, so iterating over the
matching documents only is the same map), followed by the
pull-then-push on the target document.  `ensure_indexes`' cleanup stage
runs the unwind/group aggregation on the collection, then deletes, for
every non-empty hash with more than one unwound occurrence, all ids of
that group but the first (`ids[1:]`); the groups are computed from the
pre-cleanup collection, as the aggregation cursor is. -/

namespace FilesApi

/-- A `files` array entry, restricted to the claim-relevant fields. -/
structure FileMeta where
  file_hash : String
  filename : String
deriving DecidableEq

/-- One document of the `vectorstore` collection. -/
structure VsDoc where
  docId : String
  files : List FileMeta
deriving DecidableEq

/-- `$pull: {files: {file_hash: h}}` on a `files` array. -/
def pullHash (files : List FileMeta) (h : String) : List FileMeta :=
  files.filter (fun m => m.file_hash != h)

/-- Step 3 of `upload_file`: on every document other than the target
that holds the hash, pull the matching entries (the Qdrant point
deletion is an external effect). -/
def pullStep (targetId fh : String) (d : VsDoc) : VsDoc :=
  if d.docId ≠ targetId ∧ d.files.any (fun m => m.file_hash == fh) then
    { d with files := pullHash d.files fh }
  else d

/-- Step 4 of `upload_file`: on the target document, pull the hash and
push the new entry. -/
def pushStep (targetId : String) (meta : FileMeta) (d : VsDoc) : VsDoc :=
  if d.docId = targetId then
    { d with files := pullHash d.files meta.file_hash ++ [meta] }
  else d

/-- `upload_file` from `routes/files.py` on its success path (an
existing target vectorstore, no concurrent `DuplicateKeyError`). -/
def upload_file (coll : List VsDoc) (targetId : String) (meta : FileMeta) :
    List VsDoc :=
  (coll.map (pullStep targetId meta.file_hash)).map (pushStep targetId meta)

/-- The `$unwind`/`$match` stages of the cleanup aggregation in
`ensure_indexes`: the `(file_hash, _id)` pairs of every non-empty hash,
in collection order. -/
def hashEntries (coll : List VsDoc) : List (String × String) :=
  coll.flatMap (fun d =>
    (d.files.filter (fun m => m.file_hash != "")).map
      (fun m => (m.file_hash, d.docId)))

/-- The `ids` array of the `$group` stage for one hash. -/
def groupIds (coll : List VsDoc) (h : String) : List String :=
  ((hashEntries coll).filter (fun p => p.1 == h)).map Prod.snd

/-- The ids deleted by the cleanup loop: for every group with more than
one occurrence, `duplicate_ids = doc["ids"][1:]`. -/
def deleteTargets (coll : List VsDoc) : List String :=
  ((hashEntries coll).map Prod.fst).dedup.flatMap (fun h =>
    if 1 < (groupIds coll h).length then (groupIds coll h).drop 1 else [])

/-- The cleanup stage of `ensure_indexes` from `db.py`: delete every
document whose id landed in some group's `ids[1:]`. -/
def ensure_indexes_dedup (coll : List VsDoc) : List VsDoc :=
  coll.filter (fun d => !((deleteTargets coll).contains d.docId))

lemma pullStep_docId (t fh : String) (d : VsDoc) :
    (pullStep t fh d).docId = d.docId := by
  unfold pullStep
  split <;> rfl

lemma pushStep_docId (t : String) (meta : FileMeta) (d : VsDoc) :
    (pushStep t meta d).docId = d.docId := by
  unfold pushStep
  split <;> rfl

lemma mem_pullHash (files : List FileMeta) (h : String) (m : FileMeta)
    (hm : m ∈ pullHash files h) : m.file_hash ≠ h := by
  simp only [pullHash, List.mem_filter, bne_iff_ne] at hm
  exact hm.2

lemma pullHash_countP (files : List FileMeta) (h : String) :
    (pullHash files h).countP (fun m => m.file_hash == h) = 0 := by
  rw [List.countP_eq_zero]
  intro m hm
  simp only [beq_iff_eq]
  exact mem_pullHash files h m hm

lemma docId_mem_groupIds (coll : List VsDoc) (h : String) (d : VsDoc)
    (hd : d ∈ coll) (m : FileMeta) (hm : m ∈ d.files)
    (hhash : m.file_hash = h) (hh : h ≠ "") : d.docId ∈ groupIds coll h := by
  simp only [groupIds, List.mem_map, List.mem_filter]
  refine ⟨(h, d.docId), ⟨?_, by simp⟩, rfl⟩
  simp only [hashEntries, List.mem_flatMap, List.mem_map, List.mem_filter]
  refine ⟨d, hd, m, ⟨hm, ?_⟩, by rw [hhash]⟩
  rw [hhash]
  exact bne_iff_ne.mpr hh

lemma hash_mem_of_groupIds_ne_nil (coll : List VsDoc) (h : String)
    (hne : groupIds coll h ≠ []) :
    h ∈ (hashEntries coll).map Prod.fst := by
  obtain ⟨y, hy⟩ := List.exists_mem_of_ne_nil _ hne
  simp only [groupIds, List.mem_map, List.mem_filter] at hy
  obtain ⟨p, ⟨hp, hph⟩, _⟩ := hy
  simp only [List.mem_map]
  exact ⟨p, hp, by simpa [beq_iff_eq] using hph⟩

lemma mem_deleteTargets_of_drop (coll : List VsDoc) (h x : String)
    (hlen : 1 < (groupIds coll h).length)
    (hx : x ∈ (groupIds coll h).drop 1) : x ∈ deleteTargets coll := by
  simp only [deleteTargets, List.mem_flatMap]
  refine ⟨h, ?_, ?_⟩
  · rw [List.mem_dedup]
    exact hash_mem_of_groupIds_ne_nil coll h
      (by intro hnil; rw [hnil] at hlen; simp at hlen)
  · rw [if_pos hlen]
    exact hx

lemma groupIds_two_members (coll : List VsDoc) (h x y : String)
    (hx : x ∈ groupIds coll h) (hy : y ∈ groupIds coll h) (hxy : x ≠ y) :
    x ∈ deleteTargets coll ∨ y ∈ deleteTargets coll := by
  rcases hg : groupIds coll h with _ | ⟨a, rest⟩
  · rw [hg] at hx
    exact absurd hx (List.not_mem_nil x)
  · rw [hg] at hx hy
    rcases List.mem_cons.mp hx with rfl | hx'
    · rcases List.mem_cons.mp hy with rfl | hy'
      · exact absurd rfl hxy
      · refine Or.inr (mem_deleteTargets_of_drop coll h y ?_ ?_)
        · rw [hg]
          have := List.length_pos.mpr (List.ne_nil_of_mem hy')
          simp only [List.length_cons]
          omega
        · rw [hg]
          exact hy'
    · refine Or.inl (mem_deleteTargets_of_drop coll h x ?_ ?_)
      · rw [hg]
        have := List.length_pos.mpr (List.ne_nil_of_mem hx')
        simp only [List.length_cons]
        omega
      · rw [hg]
        exact hx'

/-- C4 amended: after a successful upload of a file with hash H into an
existing vectorstore V, no other vectorstore document holds a files
entry with hash H and V holds exactly one; the startup cleanup of
`ensure_indexes` leaves at most one document per non-empty hash (it
restores uniqueness, but — as the counterexample shows — the kept count
can be zero rather than one when the first holder of one hash is itself
deleted as a duplicate holder of another). -/
theorem upload_file_and_startup_dedup (coll : List VsDoc)
    (targetId : String) (meta : FileMeta) (coll2 : List VsDoc) (h : String)
    (hnodup : (coll2.map VsDoc.docId).Nodup) (hh : h ≠ "") :
    (∀ d ∈ upload_file coll targetId meta, d.docId ≠ targetId →
        ∀ m ∈ d.files, m.file_hash ≠ meta.file_hash)
    ∧ (∀ d ∈ upload_file coll targetId meta, d.docId = targetId →
        d.files.countP (fun m => m.file_hash == meta.file_hash) = 1)
    ∧ (∀ d1 ∈ ensure_indexes_dedup coll2, ∀ d2 ∈ ensure_indexes_dedup coll2,
        d1.files.any (fun m => m.file_hash == h) = true →
        d2.files.any (fun m => m.file_hash == h) = true → d1 = d2) := by
  refine ⟨?_, ?_, ?_⟩
  · intro d hd hne m hm
    simp only [upload_file, List.mem_map] at hd
    obtain ⟨d1, ⟨d0, hd0, rfl⟩, rfl⟩ := hd
    rw [pushStep_docId, pullStep_docId] at hne
    have hpush : pushStep targetId meta (pullStep targetId meta.file_hash d0)
        = pullStep targetId meta.file_hash d0 := by
      unfold pushStep
      rw [if_neg]
      rw [pullStep_docId]
      exact hne
    rw [hpush] at hm
    unfold pullStep at hm
    split at hm
    · exact mem_pullHash d0.files meta.file_hash m hm
    · rename_i hc
      rw [not_and] at hc
      have hany := hc hne
      simp only [List.any_eq_true, beq_iff_eq, not_exists, not_and] at hany
      exact fun hmv => (hany m hm) hmv
  · intro d hd heq
    simp only [upload_file, List.mem_map] at hd
    obtain ⟨d1, ⟨d0, hd0, rfl⟩, rfl⟩ := hd
    rw [pushStep_docId, pullStep_docId] at heq
    unfold pushStep
    rw [if_pos (by rw [pullStep_docId]; exact heq)]
    simp only [List.countP_append, pullHash_countP]
    simp [List.countP_cons]
  · intro d1 hd1 d2 hd2 ha1 ha2
    simp only [ensure_indexes_dedup, List.mem_filter, Bool.not_eq_true'] at hd1 hd2
    have hnd1 : d1.docId ∉ deleteTargets coll2 := by simpa using hd1.2
    have hnd2 : d2.docId ∉ deleteTargets coll2 := by simpa using hd2.2
    simp only [List.any_eq_true, beq_iff_eq] at ha1 ha2
    obtain ⟨m1, hm1, hh1⟩ := ha1
    obtain ⟨m2, hm2, hh2⟩ := ha2
    have hg1 : d1.docId ∈ groupIds coll2 h :=
      docId_mem_groupIds coll2 h d1 hd1.1 m1 hm1 hh1 hh
    have hg2 : d2.docId ∈ groupIds coll2 h :=
      docId_mem_groupIds coll2 h d2 hd2.1 m2 hm2 hh2 hh
    by_cases hid : d1.docId = d2.docId
    · exact List.inj_on_of_nodup_map hnodup hd1.1 hd2.1 hid
    · rcases groupIds_two_members coll2 h d1.docId d2.docId hg1 hg2 hid with hdel | hdel
      · exact absurd hdel hnd1
      · exact absurd hdel hnd2

/-- Witness for the amended C4 at a concrete collection: uploading hash
`"h1"` into existing store `"v2"` leaves `"v1"` without the hash and
`"v2"` with exactly one entry, and the startup cleanup of a two-document
collection sharing `"h2"` leaves at most one holder. -/
theorem upload_file_and_startup_dedup_witness :
    (∀ d ∈ upload_file [⟨"v1", [⟨"h1", "a.txt"⟩]⟩, ⟨"v2", []⟩] "v2" ⟨"h1", "b.txt"⟩,
        d.docId ≠ "v2" → ∀ m ∈ d.files, m.file_hash ≠ "h1")
    ∧ (∀ d ∈ upload_file [⟨"v1", [⟨"h1", "a.txt"⟩]⟩, ⟨"v2", []⟩] "v2" ⟨"h1", "b.txt"⟩,
        d.docId = "v2" → d.files.countP (fun m => m.file_hash == "h1") = 1)
    ∧ (∀ d1 ∈ ensure_indexes_dedup [⟨"v1", [⟨"h2", "c.txt"⟩]⟩, ⟨"v2", [⟨"h2", "d.txt"⟩]⟩],
        ∀ d2 ∈ ensure_indexes_dedup [⟨"v1", [⟨"h2", "c.txt"⟩]⟩, ⟨"v2", [⟨"h2", "d.txt"⟩]⟩],
        d1.files.any (fun m => m.file_hash == "h2") = true →
        d2.files.any (fun m => m.file_hash == "h2") = true → d1 = d2) :=
  upload_file_and_startup_dedup
    [⟨"v1", [⟨"h1", "a.txt"⟩]⟩, ⟨"v2", []⟩] "v2" ⟨"h1", "b.txt"⟩
    [⟨"v1", [⟨"h2", "c.txt"⟩]⟩, ⟨"v2", [⟨"h2", "d.txt"⟩]⟩] "h2"
    (by decide) (by decide)

/-- The collection of the C4 counterexample: document 2 shares hash
`"a"` with document 1 and hash `"b"` with document 3. -/
def cexColl : List VsDoc :=
  [⟨"1", [⟨"a", "f1"⟩]⟩, ⟨"2", [⟨"a", "f2"⟩, ⟨"b", "f3"⟩]⟩, ⟨"3", [⟨"b", "f4"⟩]⟩]

/-- C4 counterexample: on `cexColl` two documents share the non-empty
hash `"b"` before startup cleanup, and the cleanup deletes both of them
(document 2 as a duplicate holder of `"a"`, document 3 as a duplicate
holder of `"b"`), keeping none rather than one. -/
theorem ensure_indexes_dedup_cex :
    cexColl.countP (fun d => d.files.any (fun m => m.file_hash == "b")) = 2
    ∧ (ensure_indexes_dedup cexColl).countP
        (fun d => d.files.any (fun m => m.file_hash == "b")) = 0 := by
  constructor <;> rfl

end FilesApi

/-! ## Fallback hash embedding (`src/api/app/rag_utils.py`, `_hash_embed_one`)

Text is `List Char`; `text.lower()` is the character-wise `Char.toLower`
and the `\w` class of `re.findall(r"\w+", ...)` is modelled by its
alphanumeric-or-underscore core.  The per-character hash
`h = (h * 131 + ord(ch)) & 0x7fffffff` is the explicit fold below — the
function is a pure function of the text by construction, with no
runtime-randomized hashing.  The float vector is embedded over exact
reals: the bucket accumulation `vec[idx] += 1.0` keeps integer values
(modelled as the index function `bumpCounts`), and only the final
normalisation divides by `math.sqrt(sum(v*v)) or 1.0`. -/

namespace RagUtils

/-- One step of the stable per-character hash:
`h = (h * 131 + ord(ch)) & 0x7fffffff`. -/
def charHashStep (h : Nat) (c : Char) : Nat := (h * 131 + c.toNat) % (2 ^ 31)

/-- The hash of one token (`h` starts at 0 and folds over the characters). -/
def tokenHash (t : List Char) : Nat := t.foldl charHashStep 0

/-- `idx = h % dim`. -/
def tokenBucket (t : List Char) (dim : Nat) : Nat := tokenHash t % dim

/-- The `\w` character class (ASCII core: letters, digits, underscore). -/
def wordChar (c : Char) : Bool := c.isAlphanum || c == '_'

/-- `re.findall(r"\w+", s)`: the maximal runs of word characters, in order. -/
def findTokens (s : List Char) : List (List Char) :=
  match s with
  | [] => []
  | c :: rest =>
    if wordChar c then
      (c :: rest.takeWhile wordChar) :: findTokens (rest.dropWhile wordChar)
    else
      findTokens rest
termination_by s.length
decreasing_by
  · simp only [List.length_cons]
    have := (List.dropWhile_sublist wordChar (l := rest)).length_le
    omega
  · simp

/-- `toks = re.findall(r"\w+", text.lower())`. -/
def toks_of (text : List Char) : List (List Char) :=
  findTokens (text.map Char.toLower)

lemma findTokens_nil : findTokens [] = [] := by
  rw [findTokens]

/-- One iteration of `for t in toks: vec[idx] += 1.0`, with the vector
represented by its index function. -/
def bumpStep (dim : Nat) (vec : Nat → Nat) (t : List Char) : Nat → Nat :=
  fun i => if i = tokenBucket t dim then vec i + 1 else vec i

/-- The accumulated bucket counts after the loop. -/
def bumpCounts (toks : List (List Char)) (dim : Nat) : Nat → Nat :=
  toks.foldl (bumpStep dim) (fun _ => 0)

/-- The accumulated vector `vec`, materialised as a `dim`-length list. -/
def rawCounts (toks : List (List Char)) (dim : Nat) : List Nat :=
  (List.range dim).map (bumpCounts toks dim)

/-- `sum(v * v for v in vec)` (exact, since every entry is a count). -/
def sumsq (toks : List (List Char)) (dim : Nat) : Nat :=
  ((rawCounts toks dim).map (fun v => v * v)).sum

/-- `_hash_embed_one` from `rag_utils.py` over exact reals: the early
returns for empty text and no tokens, then the accumulated counts
divided by `math.sqrt(sum(v*v)) or 1.0`. -/
noncomputable def hash_embed_one (text : List Char) (dim : Nat) : List ℝ :=
  if text = [] then List.replicate dim 0
  else if toks_of text = [] then List.replicate dim 0
  else
    (rawCounts (toks_of text) dim).map
      (fun (v : Nat) => (v : ℝ) /
        (if sumsq (toks_of text) dim = 0 then 1
         else Real.sqrt (sumsq (toks_of text) dim)))

lemma bumpFold_mono (toks : List (List Char)) (dim : Nat) (f : Nat → Nat)
    (i : Nat) : f i ≤ toks.foldl (bumpStep dim) f i := by
  induction toks generalizing f with
  | nil => exact le_refl _
  | cons t ts ih =>
      rw [List.foldl_cons]
      refine le_trans ?_ (ih (bumpStep dim f t))
      unfold bumpStep
      split <;> omega

lemma bumpCounts_head (t0 : List Char) (ts : List (List Char)) (dim : Nat) :
    1 ≤ bumpCounts (t0 :: ts) dim (tokenBucket t0 dim) := by
  unfold bumpCounts
  rw [List.foldl_cons]
  refine le_trans ?_ (bumpFold_mono ts dim _ _)
  unfold bumpStep
  simp

lemma sumsq_pos (toks : List (List Char)) (dim : Nat) (hdim : 0 < dim)
    (hne : toks ≠ []) : 1 ≤ sumsq toks dim := by
  obtain ⟨t0, ts, rfl⟩ : ∃ t0 ts, toks = t0 :: ts := by
    cases toks with
    | nil => exact absurd rfl hne
    | cons a l => exact ⟨a, l, rfl⟩
  have hb : tokenBucket t0 dim < dim := Nat.mod_lt _ hdim
  have hc : 1 ≤ bumpCounts (t0 :: ts) dim (tokenBucket t0 dim) :=
    bumpCounts_head t0 ts dim
  have hmem : bumpCounts (t0 :: ts) dim (tokenBucket t0 dim)
      * bumpCounts (t0 :: ts) dim (tokenBucket t0 dim)
      ∈ (rawCounts (t0 :: ts) dim).map (fun v => v * v) := by
    simp only [rawCounts, List.map_map, List.mem_map, Function.comp]
    exact ⟨tokenBucket t0 dim, List.mem_range.mpr hb, rfl⟩
  calc 1 ≤ bumpCounts (t0 :: ts) dim (tokenBucket t0 dim)
        * bumpCounts (t0 :: ts) dim (tokenBucket t0 dim) :=
        Nat.one_le_iff_ne_zero.mpr (by positivity)
    _ ≤ sumsq (t0 :: ts) dim :=
        List.single_le_sum (fun x _ => Nat.zero_le x) _ hmem

lemma sum_map_div_sq (l : List Nat) (c : ℝ) :
    (l.map (fun (v : Nat) => ((v : ℝ) / c) ^ 2)).sum
      = (l.map (fun (v : Nat) => (v : ℝ) ^ 2)).sum / c ^ 2 := by
  induction l with
  | nil => simp
  | cons a t ih =>
      simp only [List.map_cons, List.sum_cons]
      rw [ih, div_pow, div_add_div_same]

lemma cast_sumsq (l : List Nat) :
    (((l.map (fun v => v * v)).sum : Nat) : ℝ)
      = (l.map (fun (v : Nat) => (v : ℝ) ^ 2)).sum := by
  induction l with
  | nil => simp
  | cons a t ih =>
      simp only [List.map_cons, List.sum_cons, Nat.cast_add, Nat.cast_mul]
      rw [ih]
      ring

/-- C9: the fallback hash embedding returns a vector of exactly `dim`
components; it is the all-zero `dim`-length vector when the lowered
text yields no token, and has L2 norm exactly 1 whenever there is at
least one token.  (Determinism is by construction: the definition is a
pure function of the text whose hash is the explicit character fold
above, not a runtime-randomized built-in hash.) -/
theorem hash_embed_one_unit_or_zero (text : List Char) (dim : Nat)
    (hdim : 0 < dim) :
    (hash_embed_one text dim).length = dim
    ∧ (toks_of text = [] → hash_embed_one text dim = List.replicate dim 0)
    ∧ (toks_of text ≠ [] →
        Real.sqrt (((hash_embed_one text dim).map (fun x => x ^ 2)).sum) = 1) := by
  refine ⟨?_, ?_, ?_⟩
  · by_cases h1 : text = [] <;> by_cases h2 : toks_of text = [] <;>
      simp [hash_embed_one, h1, h2, rawCounts]
  · intro h2
    by_cases h1 : text = [] <;> simp [hash_embed_one, h1, h2]
  · intro hne
    have h1 : text ≠ [] := by
      intro h
      apply hne
      rw [h]
      simp [toks_of, findTokens_nil]
    have hs : 1 ≤ sumsq (toks_of text) dim := sumsq_pos _ dim hdim hne
    have hs0 : sumsq (toks_of text) dim ≠ 0 := by omega
    have hsr : ((sumsq (toks_of text) dim : Nat) : ℝ) ≠ 0 := by
      exact_mod_cast hs0
    rw [hash_embed_one, if_neg h1, if_neg hne, if_neg hs0]
    rw [List.map_map]
    have hcomp : ((fun x : ℝ => x ^ 2) ∘
        fun (v : Nat) => (v : ℝ) / Real.sqrt (sumsq (toks_of text) dim))
        = fun (v : Nat) => ((v : ℝ) / Real.sqrt (sumsq (toks_of text) dim)) ^ 2 :=
      rfl
    rw [hcomp, sum_map_div_sq]
    rw [Real.sq_sqrt (by positivity)]
    have hsq : ((rawCounts (toks_of text) dim).map
        (fun (v : Nat) => (v : ℝ) ^ 2)).sum
        = ((sumsq (toks_of text) dim : Nat) : ℝ) := by
      rw [sumsq, cast_sumsq]
    rw [hsq, div_self hsr, Real.sqrt_one]

/-- Witness for C9 at the concrete text `"ab cd!"` and `dim = 5`. -/
theorem hash_embed_one_unit_or_zero_witness :
    (hash_embed_one "ab cd!".toList 5).length = 5
    ∧ (toks_of "ab cd!".toList = [] →
        hash_embed_one "ab cd!".toList 5 = List.replicate 5 0)
    ∧ (toks_of "ab cd!".toList ≠ [] →
        Real.sqrt (((hash_embed_one "ab cd!".toList 5).map (fun x => x ^ 2)).sum) = 1) :=
  hash_embed_one_unit_or_zero "ab cd!".toList 5 (by decide)

end RagUtils

/-! ## Text chunking (`src/api/app/rag_utils.py`, `chunk_text`)

The `while i < n` loop becomes fuel-indexed recursion: `none` means the
fuel ran out before the loop finished, so `chunk_text … = some out`
states termination.  `text.length + 1` fuel is proven sufficient
whenever `overlap < chunk_size` (for `overlap ≥ chunk_size` or
`chunk_size = 0` the Python loop need not advance, and indeed no fuel
bound works).  Python's `max(0, j - overlap)` is `Nat` subtraction.
The source's `end` field is named `stop` (`end` is a Lean keyword). -/

namespace ChunkText

/-- One element of the returned list:
`{"text": text[i:j], "start": i, "end": j}`. -/
structure Chunk where
  text : List Char
  start : Nat
  stop : Nat
deriving DecidableEq

/-- The chunk appended in one loop iteration. -/
def mkChunk (text : List Char) (i j : Nat) : Chunk :=
  ⟨(text.drop i).take (j - i), i, j⟩

lemma mkChunk_start (text : List Char) (i j : Nat) :
    (mkChunk text i j).start = i := rfl

lemma mkChunk_stop (text : List Char) (i j : Nat) :
    (mkChunk text i j).stop = j := rfl

/-- The loop of `chunk_text`, at current index `i`, with explicit fuel. -/
def chunkTextAux (text : List Char) (cs ov : Nat) :
    Nat → Nat → Option (List Chunk)
  | 0, _ => none
  | fuel + 1, i =>
    if i < text.length then
      if min text.length (i + cs) = text.length then
        some [mkChunk text i (min text.length (i + cs))]
      else
        (chunkTextAux text cs ov fuel (min text.length (i + cs) - ov)).map
          (fun rest => mkChunk text i (min text.length (i + cs)) :: rest)
    else some []

/-- `chunk_text` from `rag_utils.py` (source defaults:
`chunk_size = 600`, `overlap = 120`); fuel `text.length + 1` is enough
whenever the loop terminates at all. -/
def chunk_text (text : List Char) (cs ov : Nat) : Option (List Chunk) :=
  chunkTextAux text cs ov (text.length + 1) 0

lemma chunkTextAux_spec (text : List Char) (cs ov : Nat) (hov : ov < cs) :
    ∀ fuel i, text.length - i < fuel →
    ∃ out, chunkTextAux text cs ov fuel i = some out
      ∧ (i < text.length →
          out.head?.map Chunk.start = some i
          ∧ out.getLast?.map Chunk.stop = some text.length)
      ∧ (text.length ≤ i → out = [])
      ∧ (∀ c ∈ out,
          c.text = (text.drop c.start).take (c.stop - c.start)
          ∧ c.stop - c.start ≤ cs ∧ c.start < c.stop ∧ c.stop ≤ text.length)
      ∧ List.Chain' (fun a b => b.start = a.stop - ov) out := by
  intro fuel
  induction fuel with
  | zero => intro i hi; omega
  | succ fuel ih =>
    intro i hi
    by_cases hlt : i < text.length
    case neg =>
      refine ⟨[], ?_, ?_, fun _ => rfl, by simp, by simp⟩
      · simp [chunkTextAux, hlt]
      · intro h; omega
    case pos =>
      by_cases hend : min text.length (i + cs) = text.length
      case pos =>
        refine ⟨[mkChunk text i (min text.length (i + cs))], ?_, ?_, ?_, ?_, ?_⟩
        · simp only [chunkTextAux]
          rw [if_pos hlt, if_pos hend]
        · intro _
          constructor
          · rfl
          · simp only [List.getLast?_singleton]
            rw [hend]
            rfl
        · intro h; omega
        · intro c hc
          rw [List.mem_singleton] at hc
          subst hc
          refine ⟨rfl, ?_, ?_, ?_⟩
          · simp only [mkChunk_start, mkChunk_stop]
            have := min_le_right text.length (i + cs)
            omega
          · simp only [mkChunk_start, mkChunk_stop]
            exact lt_min hlt (by omega)
          · simp only [mkChunk_stop]
            exact min_le_left _ _
        · exact List.chain'_singleton _
      case neg =>
        have hjn : min text.length (i + cs) < text.length :=
          lt_of_le_of_ne (min_le_left _ _) hend
        have hcs : i + cs < text.length := by
          rcases Nat.le_total text.length (i + cs) with hle | hle
          · rw [min_eq_left hle] at hend
            exact absurd rfl hend
          · rw [min_eq_right hle] at hjn
            exact hjn
        have hjeq : min text.length (i + cs) = i + cs :=
          min_eq_right (le_of_lt hcs)
        have hfuel : text.length - (min text.length (i + cs) - ov) < fuel := by
          omega
        obtain ⟨out', heq', hpos', hnil', hprops', hchain'⟩ :=
          ih (min text.length (i + cs) - ov) hfuel
        have hi' : min text.length (i + cs) - ov < text.length := by omega
        obtain ⟨hhead', hlast'⟩ := hpos' hi'
        have hne' : out' ≠ [] := by
          intro h
          rw [h] at hhead'
          simp at hhead'
        refine ⟨mkChunk text i (min text.length (i + cs)) :: out', ?_, ?_, ?_, ?_, ?_⟩
        · simp only [chunkTextAux]
          rw [if_pos hlt, if_neg hend, heq']
          rfl
        · intro _
          constructor
          · rfl
          · cases out' with
            | nil => exact absurd rfl hne'
            | cons b t =>
                rw [List.getLast?_cons_cons]
                exact hlast'
        · intro h; omega
        · intro c hc
          rcases List.mem_cons.mp hc with rfl | hc'
          · refine ⟨rfl, ?_, ?_, ?_⟩
            · simp only [mkChunk_start, mkChunk_stop]
              have := min_le_right text.length (i + cs)
              omega
            · simp only [mkChunk_start, mkChunk_stop]
              exact lt_min hlt (by omega)
            · simp only [mkChunk_stop]
              exact min_le_left _ _
          · exact hprops' c hc'
        · rw [List.chain'_cons']
          refine ⟨?_, hchain'⟩
          intro b hb
          cases out' with
          | nil => exact absurd rfl hne'
          | cons b0 t =>
              simp only [List.head?_cons, Option.mem_def, Option.some.injEq] at hb
              subst hb
              simp only [List.head?_cons, Option.map_some',
                Option.some.injEq] at hhead'
              rw [mkChunk_stop]
              exact hhead'

/-- C10: for `overlap < chunk_size`, `chunk_text` terminates
(`text.length + 1` fuel yields `some`) and its output covers the input:
the empty text gives the empty list; otherwise the first chunk starts
at 0 and the last ends at `text.length`; every chunk is exactly
`text[start:end]` with `end - start ≤ chunk_size` and `start < end ≤
text.length`; and each subsequent chunk starts at
`max(0, previous end - overlap)` (truncated subtraction). -/
theorem chunk_text_covers (text : List Char) (cs ov : Nat) (hov : ov < cs) :
    ∃ out, chunk_text text cs ov = some out
      ∧ (text = [] → out = [])
      ∧ (text ≠ [] →
          out.head?.map Chunk.start = some 0
          ∧ out.getLast?.map Chunk.stop = some text.length)
      ∧ (∀ c ∈ out,
          c.text = (text.drop c.start).take (c.stop - c.start)
          ∧ c.stop - c.start ≤ cs ∧ c.start < c.stop ∧ c.stop ≤ text.length)
      ∧ List.Chain' (fun a b => b.start = a.stop - ov) out := by
  obtain ⟨out, heq, hpos, hnil, hprops, hchain⟩ :=
    chunkTextAux_spec text cs ov hov (text.length + 1) 0 (by omega)
  refine ⟨out, heq, ?_, ?_, hprops, hchain⟩
  · intro h
    exact hnil (by rw [h]; exact le_refl _)
  · intro h
    exact hpos (List.length_pos.mpr h)

/-- Witness for C10 at the concrete text `"hello world"`,
`chunk_size = 4`, `overlap = 1`. -/
theorem chunk_text_covers_witness :
    ∃ out, chunk_text "hello world".toList 4 1 = some out
      ∧ ("hello world".toList = [] → out = [])
      ∧ ("hello world".toList ≠ [] →
          out.head?.map Chunk.start = some 0
          ∧ out.getLast?.map Chunk.stop = some "hello world".toList.length)
      ∧ (∀ c ∈ out,
          c.text = ("hello world".toList.drop c.start).take (c.stop - c.start)
          ∧ c.stop - c.start ≤ 4 ∧ c.start < c.stop
          ∧ c.stop ≤ "hello world".toList.length)
      ∧ List.Chain' (fun a b => b.start = a.stop - 1) out :=
  chunk_text_covers "hello world".toList 4 1 (by decide)

end ChunkText
